import Mathlib

/-!
Verification of the red-black tree implementation `rbtree.c` of foundry.c.

The development is a shallow embedding of the C source: each C function is
translated into a Lean function over an inductive tree type.  Pointer-linked
`struct rbnode` records become the inductive `rbnode`; the
path-of-child-slots recorded by `rbtree_insert` (the `backtrace` array of
`struct rbnode **` together with the parallel `uncles` array) becomes an
explicit list of `Frame`s, i.e. a zipper over the tree; assertion failures
are modelled as `Option.none` results.  Color tags are kept as machine
integers, since the checker `_check_node_colors` explicitly tests for tags
outside the two valid values.
-/

namespace Foundry

/-- `RB_BLACK`, the first enumerator of `enum { RB_BLACK, RB_RED } color;` in
`struct rbnode` (rbtree.h, staged inside src/list.c): value 0. -/
def RB_BLACK : Int := 0

/-- `RB_RED`, the second enumerator of the color enum in rbtree.h: value 1. -/
def RB_RED : Int := 1

/-- `struct rbnode` (rbtree.h): a color tag plus two child links, embedded
intrusively in a caller record.  The caller payload reachable from the node is
abstracted as `val : α`; `nil` is the C `NULL` child. -/
inductive rbnode (α : Type) : Type where
  | nil : rbnode α
  | node (color : Int) (left : rbnode α) (val : α) (right : rbnode α) : rbnode α
deriving DecidableEq

variable {α : Type} {σ : Type}

/-- `_check_node_colors` (rbtree.c lines 475-486): verifies every node is
tagged `RB_BLACK` or `RB_RED`; 0 on success, -1 on a bad tag. -/
def check_node_colors : rbnode α → Int
  | .nil => 0
  | .node c l _ r =>
    if c ≠ RB_BLACK ∧ c ≠ RB_RED then -1
    else if check_node_colors l = -1 ∨ check_node_colors r = -1 then -1
    else 0

/-- `_is_black` (rbtree.c lines 496-499): a node is black if it is `NULL` or
tagged `RB_BLACK`. -/
def is_black : rbnode α → Bool
  | .nil => true
  | .node c _ _ _ => decide (c = RB_BLACK)

/-- `_check_red_nodes`, the recursive revision (rbtree.c lines 511-534):
0 if the subtree has no two consecutive non-black nodes, -1 otherwise. -/
def check_red_nodes : rbnode α → Int
  | .nil => 0
  | .node c l v r =>
    if ¬ is_black (rbnode.node c l v r) ∧ (¬ is_black l ∨ ¬ is_black r) then -1
    else if check_red_nodes l = -1 then -1
    else if check_red_nodes r = -1 then -1
    else 0

/-- `_check_red_nodes`, the non-recursive revision (rbtree.c lines 89-100):
tests only the node it is given, never its descendants. -/
def check_red_nodes_v0 : rbnode α → Int
  | .nil => 0
  | .node c l _ r =>
    if c = RB_RED ∧ (¬ is_black l ∨ ¬ is_black r) then -1
    else 0

/-- `_get_black_depth` (rbtree.c lines 545-559): the number of black nodes
(counting the `NULL` leaf) on every path down from the node, or -1 if two
subtrees disagree. -/
def get_black_depth : rbnode α → Int
  | .nil => 1
  | .node c l v r =>
    let lt := get_black_depth l
    let rt := get_black_depth r
    if lt = -1 ∨ lt ≠ rt then -1
    else lt + (if is_black (rbnode.node c l v r) then 1 else 0)

/-- The `RBCHECK` macro (rbtree.c lines 449-454): the conjunction of the four
runtime assertions checking the five red-black invariants. -/
def rbcheck (t : rbnode α) : Bool :=
  decide (check_node_colors t = 0) && is_black t &&
  decide (check_red_nodes t = 0) && decide (0 ≤ get_black_depth t)

/-- `MAX_RBTREE_DEPTH` (rbtree.c line 465). -/
def MAX_RBTREE_DEPTH : Nat := 128

/-- `_rotate_left` (rbtree.c lines 569-579), acting on the subtree held in the
slot `n`.  The C code asserts `(*n)->right != NULL`; on shapes violating that
assertion the function is left as the identity (no caller in this file ever
reaches that case). -/
def rotate_left : rbnode α → rbnode α
  | .node c l v (.node rc rl rv rr) => .node rc (.node c l v rl) rv rr
  | t => t

/-- `_rotate_right` (rbtree.c lines 588-598); mirror of `rotate_left`. -/
def rotate_right : rbnode α → rbnode α
  | .node c (.node lc ll lv lr) v r => .node lc ll lv (.node c lr v r)
  | t => t

/-- `_traverse` (rbtree.c lines 607-627): in-order walk threading the scratch
state through the callback; a nonzero callback result aborts the walk and is
returned. The C callback mutates `*scratch`; here it returns the new state. -/
def traverse (cb : α → σ → Int × σ) : rbnode α → σ → Int × σ
  | .nil, s => (0, s)
  | .node _ l v r, s =>
    let p1 := traverse cb l s
    if p1.1 ≠ 0 then p1
    else
      let p2 := cb v p1.2
      if p2.1 ≠ 0 then p2
      else
        let p3 := traverse cb r p2.2
        if p3.1 ≠ 0 then p3
        else (0, p3.2)

/-- `rbtree_search`'s descent loop (rbtree.c lines 665-693), recursion on the
current node standing for the `while` loop; returns the found node (as the
subtree it roots) or `nil` for the C `NULL` result. -/
def search_node (cmp : α → α → Int) (key : α) : rbnode α → rbnode α
  | .nil => .nil
  | .node c l v r =>
    if cmp key v < 0 then search_node cmp key l
    else if 0 < cmp key v then search_node cmp key r
    else .node c l v r

/-- One level of the descent path recorded by `rbtree_insert`: the direction
taken, the traversed node's color and payload, and its other child (the
subtree that `rbtree_insert` records in the `uncles` array one level further
down). `backtrace[k]` in the C code corresponds to the hole of the zipper
made of the frames above level `k`. -/
structure Frame (α : Type) : Type where
  dir : Bool
  color : Int
  val : α
  other : rbnode α
deriving DecidableEq

/-- Re-attach one frame around a subtree: the inverse of one descent step.
`dir = false` means the descent went into the left child. -/
def plug (n : rbnode α) (f : Frame α) : rbnode α :=
  if f.dir then .node f.color f.other f.val n
  else .node f.color n f.val f.other

/-- Re-attach a whole path (innermost frame first); `rebuild n path` is the
tree whose root slot is `backtrace[0]`, with `n` sitting in the hole. -/
def rebuild (n : rbnode α) (path : List (Frame α)) : rbnode α :=
  path.foldl plug n

/-- The descent loop of `rbtree_insert` (rbtree.c lines 727-750): walk down
comparing the new node against each traversed node, recording the path; the
new node goes left on a negative comparison and right otherwise.  Returns the
recorded path, innermost frame first. -/
def descend (cmp : α → α → Int) (x : α) : rbnode α → List (Frame α) → List (Frame α)
  | .nil, path => path
  | .node c l v r, path =>
    if cmp x v < 0 then descend cmp x l (⟨false, c, v, r⟩ :: path)
    else descend cmp x r (⟨true, c, v, l⟩ :: path)

/-- `node->color = RB_BLACK` on the root of a subtree. -/
def setBlack : rbnode α → rbnode α
  | .nil => .nil
  | .node _ l v r => .node RB_BLACK l v r

/-- The terminal (black-uncle) tail of `rbtree_insert` (rbtree.c lines
811-842): an inner child is first rotated to the outside at the parent's slot
(`backtrace[current-1]`), then the parent is recolored black, the grandparent
red, and the grandparent's slot (`backtrace[current-2]`) is rotated.  `f1` is
the parent's frame, `f2` the grandparent's. -/
def ins_terminal (n : rbnode α) (f1 f2 : Frame α) : rbnode α :=
  let p :=
    if f1.dir = true ∧ f2.dir = false then rotate_left (plug n f1)
    else if f1.dir = false ∧ f2.dir = true then rotate_right (plug n f1)
    else plug n f1
  let g := plug (setBlack p) ⟨f2.dir, RB_RED, f2.val, f2.other⟩
  if f2.dir then rotate_left g else rotate_right g

/-- The fixup `do ... while (backtrack)` loop of `rbtree_insert` (rbtree.c
lines 757-845) together with its terminal rotations.  `n` is
`*backtrace[current]` and `path` the frames above it.  Assertion failures
(`assert(current >= 2)`, `assert(parent->color == RB_RED)`) yield `none`; the
final `RBCHECK(tree)` of `rbtree_insert` runs only on the terminal-rotation
exit, exactly as in the C control flow, and also yields `none` on failure. -/
def ins_fixup : rbnode α → List (Frame α) → Option (rbnode α)
  | n, [] => some (setBlack n)
  | n, f1 :: rest =>
    if f1.color = RB_BLACK then some (rebuild n (f1 :: rest))
    else if f1.color ≠ RB_RED then none
    else
      match rest with
      | [] => none
      | f2 :: rest2 =>
        if is_black f2.other = false then
          ins_fixup
            (plug (plug n ⟨f1.dir, RB_BLACK, f1.val, f1.other⟩)
              ⟨f2.dir, RB_RED, f2.val, setBlack f2.other⟩)
            rest2
        else
          let res := rebuild (ins_terminal n f1 f2) rest2
          if rbcheck res then some res else none

/-- Loop-iteration count of the fixup `do ... while` loop: how many times the
loop body runs before an exit (or before the terminal rotations take over). -/
def fixupIters : rbnode α → List (Frame α) → Nat
  | _, [] => 1
  | n, f1 :: rest =>
    if f1.color = RB_BLACK then 1
    else if f1.color ≠ RB_RED then 1
    else
      match rest with
      | [] => 1
      | f2 :: rest2 =>
        if is_black f2.other = false then
          1 + fixupIters
            (plug (plug n ⟨f1.dir, RB_BLACK, f1.val, f1.other⟩)
              ⟨f2.dir, RB_RED, f2.val, setBlack f2.other⟩)
            rest2
        else 1

/-- `rbtree_insert` (rbtree.c lines 709-845) on the root subtree: check the
entry `RBCHECK` assertions, initialize the new node red with empty children,
descend recording the path (the `assert(current < MAX_RBTREE_DEPTH)` guard
becomes the length test), link the node, and run the fixup loop. -/
def rbtree_insert_node (cmp : α → α → Int) (t : rbnode α) (x : α) : Option (rbnode α) :=
  if rbcheck t = false then none
  else if MAX_RBTREE_DEPTH ≤ (descend cmp x t []).length then none
  else ins_fixup (.node RB_RED .nil x .nil) (descend cmp x t [])

/-- `struct rbtree` (root pointer plus comparator). -/
structure rbtree (α : Type) : Type where
  root : rbnode α
  cmp : α → α → Int

/-- `rbtree_init` (rbtree.c lines 637-644). -/
def rbtree_init (cmp : α → α → Int) : rbtree α := ⟨.nil, cmp⟩

/-- `rbtree_search` (rbtree.c lines 665-693). -/
def rbtree_search (t : rbtree α) (key : α) : rbnode α :=
  search_node t.cmp key t.root

/-- `rbtree_insert` on the tree handle. -/
def rbtree_insert (t : rbtree α) (x : α) : Option (rbtree α) :=
  (rbtree_insert_node t.cmp t.root x).map (fun r => ⟨r, t.cmp⟩)

/-- `rbtree_delete` (rbtree.c lines 368-372): the body casts both arguments to
void and does nothing. -/
def rbtree_delete (t : rbtree α) (_to_del : α) : rbtree α := t

/-- `rbtree_traverse` (rbtree.c lines 867-871). -/
def rbtree_traverse (t : rbtree α) (callback : α → σ → Int × σ) (scratch : σ) : Int × σ :=
  traverse callback t.root scratch

/-- In-order list of payloads of a subtree (specification-side measure). -/
def inorder : rbnode α → List α
  | .nil => []
  | .node _ l v r => inorder l ++ v :: inorder r

/-- Node count (specification-side measure). -/
def size : rbnode α → Nat
  | .nil => 0
  | .node _ l _ r => size l + size r + 1

/-- Height in nodes (specification-side measure). -/
def height : rbnode α → Nat
  | .nil => 0
  | .node _ l _ r => max (height l) (height r) + 1

/-- Modelled from the spec: "some node anywhere in that subtree is RED and
has a RED child" (claim wording for the red-red violation predicate). -/
def isRedRoot : rbnode α → Bool
  | .nil => false
  | .node c _ _ _ => decide (c = RB_RED)

/-- Modelled from the spec: the node itself is RED and has a RED child. -/
def rootRedRed : rbnode α → Bool
  | .nil => false
  | .node c l _ r => decide (c = RB_RED) && (isRedRoot l || isRedRoot r)

/-- Modelled from the spec: some node of the subtree is RED with a RED child. -/
def hasRedRed : rbnode α → Bool
  | .nil => false
  | .node c l v r => rootRedRed (rbnode.node c l v r) || hasRedRed l || hasRedRed r

/-- Modelled from the spec (§4.4): visiting a list of nodes in order, stopping
at the first nonzero callback result and propagating it. -/
def traverseSpec (cb : α → σ → Int × σ) : List α → σ → Int × σ
  | [], s => (0, s)
  | v :: vs, s =>
    let p := cb v s
    if p.1 ≠ 0 then p else traverseSpec cb vs p.2

/-- Modelled from the spec (§4.1): the ordering contract is a total-order
three-way comparator: the sign anti-symmetry of the two argument orders, and
transitivity of the induced non-strict order. -/
def cmpLawful (cmp : α → α → Int) : Prop :=
  (∀ a b, cmp a b < 0 ↔ 0 < cmp b a) ∧
  (∀ a b c, cmp a b ≤ 0 → cmp b c ≤ 0 → cmp a c ≤ 0)

/-- A sequence of insertions, failing if any single insertion fails. -/
def insertList (cmp : α → α → Int) : List α → rbnode α → Option (rbnode α)
  | [], t => some t
  | x :: xs, t =>
    match rbtree_insert_node cmp t x with
    | none => none
    | some t' => insertList cmp xs t'

/-! ### Basic facts about the checkers -/

theorem red_ne_black : RB_RED ≠ RB_BLACK := by decide

@[simp] theorem is_black_nil : is_black (rbnode.nil : rbnode α) = true := rfl

@[simp] theorem is_black_node {c : Int} {l r : rbnode α} {v : α} :
    is_black (rbnode.node c l v r) = decide (c = RB_BLACK) := rfl

theorem check_node_colors_cases (t : rbnode α) :
    check_node_colors t = 0 ∨ check_node_colors t = -1 := by
  induction t with
  | nil => exact Or.inl rfl
  | node c l v r ihl ihr =>
    simp only [check_node_colors]
    split
    · exact Or.inr rfl
    · split
      · exact Or.inr rfl
      · exact Or.inl rfl

theorem check_node_colors_node {c : Int} {l r : rbnode α} {v : α} :
    check_node_colors (rbnode.node c l v r) = 0 ↔
      (c = RB_RED ∨ c = RB_BLACK) ∧ check_node_colors l = 0 ∧ check_node_colors r = 0 := by
  simp only [check_node_colors]
  rcases check_node_colors_cases l with hl | hl <;>
    rcases check_node_colors_cases r with hr | hr <;>
      split_ifs with h1 h2 <;> simp_all <;> tauto

theorem check_red_nodes_cases (t : rbnode α) :
    check_red_nodes t = 0 ∨ check_red_nodes t = -1 := by
  induction t with
  | nil => exact Or.inl rfl
  | node c l v r ihl ihr =>
    simp only [check_red_nodes]
    split
    · exact Or.inr rfl
    · split
      · exact Or.inr rfl
      · split
        · exact Or.inr rfl
        · exact Or.inl rfl

theorem check_red_nodes_node {c : Int} {l r : rbnode α} {v : α} :
    check_red_nodes (rbnode.node c l v r) = 0 ↔
      (is_black (rbnode.node c l v r) = true ∨ (is_black l = true ∧ is_black r = true)) ∧
      check_red_nodes l = 0 ∧ check_red_nodes r = 0 := by
  simp only [check_red_nodes]
  cases hs : is_black (rbnode.node c l v r) <;>
    cases hbl : is_black l <;>
      cases hbr : is_black r <;>
        rcases check_red_nodes_cases l with hl | hl <;>
          rcases check_red_nodes_cases r with hr | hr <;>
            simp_all

theorem get_black_depth_cases (t : rbnode α) :
    get_black_depth t = -1 ∨ 1 ≤ get_black_depth t := by
  induction t with
  | nil => right; norm_num [get_black_depth]
  | node c l v r ihl ihr =>
    simp only [get_black_depth]
    split
    · exact Or.inl rfl
    · rename_i h
      push_neg at h
      right
      rcases ihl with h1 | h1
      · exact absurd h1 h.1
      · split <;> omega

theorem get_black_depth_node {c : Int} {l r : rbnode α} {v : α} {d : Int} :
    get_black_depth (rbnode.node c l v r) = d → 1 ≤ d →
      get_black_depth l = d - (if is_black (rbnode.node c l v r) then 1 else 0) ∧
      get_black_depth r = d - (if is_black (rbnode.node c l v r) then 1 else 0) ∧
      1 ≤ d - (if is_black (rbnode.node c l v r) then 1 else 0) := by
  intro h hd
  simp only [get_black_depth] at h
  split at h
  · omega
  · rename_i hcond
    push_neg at hcond
    rcases get_black_depth_cases l with h1 | h1
    · exact absurd h1 hcond.1
    · refine ⟨by omega, by omega, by omega⟩

theorem get_black_depth_node_intro {c : Int} {l r : rbnode α} {v : α} {d : Int}
    (hl : get_black_depth l = d) (hr : get_black_depth r = d) (hd : 1 ≤ d) :
    get_black_depth (rbnode.node c l v r) =
      d + (if is_black (rbnode.node c l v r) then 1 else 0) := by
  simp only [get_black_depth]
  rw [hl, hr]
  split
  · omega
  · rfl

theorem rbcheck_eq_true {t : rbnode α} :
    rbcheck t = true ↔
      check_node_colors t = 0 ∧ is_black t = true ∧
      check_red_nodes t = 0 ∧ 0 ≤ get_black_depth t := by
  simp [rbcheck, Bool.and_eq_true, and_assoc]

/-! ### In-order lists, plugging and rebuilding -/

@[simp] theorem inorder_nil : inorder (rbnode.nil : rbnode α) = [] := rfl

@[simp] theorem inorder_node {c : Int} {l r : rbnode α} {v : α} :
    inorder (rbnode.node c l v r) = inorder l ++ v :: inorder r := rfl

@[simp] theorem inorder_setBlack (t : rbnode α) : inorder (setBlack t) = inorder t := by
  cases t <;> rfl

theorem inorder_rotate_left (t : rbnode α) : inorder (rotate_left t) = inorder t := by
  match t with
  | .nil => rfl
  | .node c l v .nil => rfl
  | .node c l v (.node rc rl rv rr) => simp [rotate_left]

theorem inorder_rotate_right (t : rbnode α) : inorder (rotate_right t) = inorder t := by
  match t with
  | .nil => rfl
  | .node c .nil v r => rfl
  | .node c (.node lc ll lv lr) v r => simp [rotate_right]

/-- The payloads strictly to the left of the zipper hole, leftmost first. -/
def framePre (f : Frame α) : List α :=
  if f.dir then inorder f.other ++ [f.val] else []

/-- The payloads strictly to the right of the zipper hole. -/
def framePost (f : Frame α) : List α :=
  if f.dir then [] else f.val :: inorder f.other

/-- All payloads to the left of the hole of a path. -/
def preL : List (Frame α) → List α
  | [] => []
  | f :: p => preL p ++ framePre f

/-- All payloads to the right of the hole of a path. -/
def postL : List (Frame α) → List α
  | [] => []
  | f :: p => framePost f ++ postL p

theorem inorder_plug (n : rbnode α) (f : Frame α) :
    inorder (plug n f) = framePre f ++ inorder n ++ framePost f := by
  rcases f with ⟨d, c, v, o⟩
  cases d <;> simp [plug, framePre, framePost]

@[simp] theorem rebuild_nil_path (n : rbnode α) : rebuild n [] = n := rfl

@[simp] theorem rebuild_cons (n : rbnode α) (f : Frame α) (p : List (Frame α)) :
    rebuild n (f :: p) = rebuild (plug n f) p := rfl

theorem inorder_rebuild (p : List (Frame α)) (n : rbnode α) :
    inorder (rebuild n p) = preL p ++ inorder n ++ postL p := by
  induction p generalizing n with
  | nil => simp [preL, postL]
  | cons f p ih => simp [preL, postL, ih, inorder_plug, List.append_assoc]

theorem rebuild_descend (cmp : α → α → Int) (x : α) (s : rbnode α) (p : List (Frame α)) :
    rebuild rbnode.nil (descend cmp x s p) = rebuild s p := by
  induction s generalizing p with
  | nil => rfl
  | node c l v r ihl ihr =>
    simp only [descend]
    split
    · rw [ihl]; rfl
    · rw [ihr]; rfl

/-! ### Traversal refinement -/

theorem traverseSpec_append (cb : α → σ → Int × σ) (l1 l2 : List α) (s : σ) :
    traverseSpec cb (l1 ++ l2) s =
      if (traverseSpec cb l1 s).1 ≠ 0 then traverseSpec cb l1 s
      else traverseSpec cb l2 (traverseSpec cb l1 s).2 := by
  induction l1 generalizing s with
  | nil => simp [traverseSpec]
  | cons v vs ih =>
    simp only [List.cons_append, traverseSpec]
    by_cases h : (cb v s).1 ≠ 0
    · simp [h]
    · simp only [if_neg h]
      exact ih _

theorem ite_ne_zero_pair (p : Int × σ) : (if p.1 ≠ 0 then p else ((0 : Int), p.2)) = p := by
  obtain ⟨a, b⟩ := p
  by_cases h : a = 0 <;> simp [h]

theorem traverse_eq_spec (cb : α → σ → Int × σ) (t : rbnode α) (s : σ) :
    traverse cb t s = traverseSpec cb (inorder t) s := by
  induction t generalizing s with
  | nil => rfl
  | node c l v r ihl ihr =>
    simp only [traverse, inorder_node, traverseSpec_append, ihl, ihr, traverseSpec]
    by_cases h1 : (traverseSpec cb (inorder l) s).1 ≠ 0
    · simp [h1]
    · simp only [if_neg h1]
      by_cases h2 : (cb v (traverseSpec cb (inorder l) s).2).1 ≠ 0
      · simp [h2]
      · simp only [if_neg h2]
        exact ite_ne_zero_pair _

theorem traverseSpec_all_zero (cb : α → σ → Int × σ) (h : ∀ v st, (cb v st).1 = 0) :
    ∀ (l : List α) (s : σ), (traverseSpec cb l s).1 = 0 := by
  intro l
  induction l with
  | nil => intro s; rfl
  | cons v vs ih => intro s; simp [traverseSpec, h v s, ih]

/-! ### Fixup loop iteration count -/

theorem fixupIters_le (path : List (Frame α)) (n : rbnode α) :
    fixupIters n path ≤ path.length / 2 + 1 := by
  generalize hk : path.length = k
  induction k using Nat.strong_induction_on generalizing path n with
  | _ k ih =>
    match path, hk with
    | [], _ => simp [fixupIters]
    | [f1], _ =>
      simp only [fixupIters]
      split_ifs <;> omega
    | f1 :: f2 :: rest2, hk =>
      simp only [fixupIters]
      have hlen : (f1 :: f2 :: rest2).length = rest2.length + 2 := by simp
      split_ifs with h1 h2 h3
      · omega
      · omega
      · have hstep := ih rest2.length (by omega) rest2
          (plug (plug n ⟨f1.dir, RB_BLACK, f1.val, f1.other⟩)
            ⟨f2.dir, RB_RED, f2.val, setBlack f2.other⟩) rfl
        simp only [List.length_cons] at hk ⊢
        omega
      · omega

theorem ins_fixup_nil_path (n : rbnode α) : ins_fixup n [] = some (setBlack n) := rfl

theorem ins_fixup_black_parent (n : rbnode α) (f1 : Frame α) (rest : List (Frame α))
    (h1 : f1.color = RB_BLACK) :
    ins_fixup n (f1 :: rest) = some (rebuild n (f1 :: rest)) := by
  cases rest <;> simp [ins_fixup, h1]

theorem ins_fixup_invalid_color (n : rbnode α) (f1 : Frame α) (rest : List (Frame α))
    (h1 : ¬ f1.color = RB_BLACK) (h2 : ¬ f1.color = RB_RED) :
    ins_fixup n (f1 :: rest) = none := by
  cases rest <;> simp [ins_fixup, h1, h2]

theorem ins_fixup_red_root_parent (n : rbnode α) (f1 : Frame α)
    (h1 : ¬ f1.color = RB_BLACK) :
    ins_fixup n [f1] = none := by
  simp [ins_fixup, h1]

theorem ins_fixup_black_uncle (n : rbnode α) (f1 f2 : Frame α) (rest2 : List (Frame α))
    (h1 : f1.color = RB_RED) (hu : is_black f2.other = true) :
    ins_fixup n (f1 :: f2 :: rest2) =
      if rbcheck (rebuild (ins_terminal n f1 f2) rest2) = true
      then some (rebuild (ins_terminal n f1 f2) rest2) else none := by
  simp [ins_fixup, h1, red_ne_black, hu]

theorem ins_fixup_red_uncle_step (m : rbnode α) (f1 f2 : Frame α) (rest2 : List (Frame α))
    (hred : f1.color = RB_RED) (huncle : is_black f2.other = false) :
    ins_fixup m (f1 :: f2 :: rest2) =
      ins_fixup (plug (plug m ⟨f1.dir, RB_BLACK, f1.val, f1.other⟩)
        ⟨f2.dir, RB_RED, f2.val, setBlack f2.other⟩) rest2 := by
  simp [ins_fixup, hred, red_ne_black, huncle]

/-! ### C3: counterexample tree for the non-recursive red check -/

/-- A black root whose left child is red with a red child: a red-red violation
strictly below the root. -/
def c3tree : rbnode Nat :=
  .node RB_BLACK (.node RB_RED (.node RB_RED .nil 0 .nil) 1 .nil) 2 .nil

theorem isRedRoot_eq_not_is_black (t : rbnode α) (hc : check_node_colors t = 0) :
    isRedRoot t = !is_black t := by
  cases t with
  | nil => rfl
  | node c l v r =>
    rw [check_node_colors_node] at hc
    rcases hc.1 with h | h <;> subst h <;> rfl

theorem check_red_nodes_zero_iff (t : rbnode α) (hc : check_node_colors t = 0) :
    check_red_nodes t = 0 ↔ hasRedRed t = false := by
  induction t with
  | nil => simp [check_red_nodes, hasRedRed]
  | node c l v r ihl ihr =>
    rw [check_node_colors_node] at hc
    obtain ⟨hcv, hcl, hcr⟩ := hc
    rw [check_red_nodes_node]
    simp only [hasRedRed, rootRedRed, Bool.or_eq_false_iff, ← ihl hcl, ← ihr hcr]
    have hl := isRedRoot_eq_not_is_black l hcl
    have hr := isRedRoot_eq_not_is_black r hcr
    have hv : is_black (rbnode.node c l v r) = !decide (c = RB_RED) := by
      rcases hcv with h | h <;> subst h <;> rfl
    rw [hl, hr, hv]
    cases hb : decide (c = RB_RED) <;>
      cases hbl : is_black l <;>
        cases hbr : is_black r <;>
          simp

theorem check_red_nodes_v0_iff (t : rbnode α) (hc : check_node_colors t = 0) :
    check_red_nodes_v0 t = -1 ↔ rootRedRed t = true := by
  cases t with
  | nil => simp [check_red_nodes_v0, rootRedRed]
  | node c l v r =>
    rw [check_node_colors_node] at hc
    obtain ⟨hcv, hcl, hcr⟩ := hc
    have hl := isRedRoot_eq_not_is_black l hcl
    have hr := isRedRoot_eq_not_is_black r hcr
    simp only [check_red_nodes_v0, rootRedRed, hl, hr]
    cases hb : decide (c = RB_RED) <;>
      cases hbl : is_black l <;>
        cases hbr : is_black r <;>
          simp_all

/-! ### Claim theorems: C3, C5, C7, C8, C9 -/

/-- C3 counterexample: on a tree whose red-red violation sits strictly below
the root, the `_check_red_nodes` revision of rbtree.c lines 89-100 reports 0
even though a RED node with a RED child is present in the subtree, so the
claimed "recursively applied, -1 iff some node anywhere in the subtree is RED
with a RED child" is false of that code. -/
theorem check_red_nodes_claim_counterexample :
    check_red_nodes_v0 c3tree = 0 ∧ hasRedRed c3tree = true ∧
      check_node_colors c3tree = 0 := by decide

/-- C3 (amended): `_check_red_nodes` as defined at rbtree.c lines 511-534 is
recursive and, on a tree whose color tags are all valid, reports -1 exactly
when some node of the subtree is RED with a RED child and 0 otherwise; the
earlier revision at lines 89-100 tests only the root: it reports -1 exactly
when the given node itself is RED with a RED child. -/
theorem check_red_nodes_correct (t : rbnode α) :
    (check_red_nodes t = 0 ∨ check_red_nodes t = -1) ∧
    (check_node_colors t = 0 → (check_red_nodes t = -1 ↔ hasRedRed t = true)) ∧
    (check_node_colors t = 0 → (check_red_nodes_v0 t = -1 ↔ rootRedRed t = true)) := by
  refine ⟨check_red_nodes_cases t, fun hc => ?_, fun hc => check_red_nodes_v0_iff t hc⟩
  have h := check_red_nodes_zero_iff t hc
  rcases check_red_nodes_cases t with h0 | h0 <;>
    rcases hb : hasRedRed t <;> simp_all

/-- C3 amended-claim witness at a concrete tree. -/
theorem check_red_nodes_correct_witness :
    check_red_nodes (c3tree) = -1 ↔ hasRedRed c3tree = true :=
  (check_red_nodes_correct c3tree).2.1 (by decide)

/-- C5: the fixup loop of `rbtree_insert` terminates: the loop body runs at
most `depth / 2 + 1` times, and the red-uncle recoloring case, the only one
that repeats the loop, continues at a path exactly 2 frames shorter (the C
`current -= 2`). -/
theorem insert_fixup_terminates (n : rbnode α) (path : List (Frame α)) :
    fixupIters n path ≤ path.length / 2 + 1 ∧
    (∀ (m : rbnode α) (f1 f2 : Frame α) (rest2 : List (Frame α)),
      f1.color = RB_RED → is_black f2.other = false →
      ins_fixup m (f1 :: f2 :: rest2) =
        ins_fixup (plug (plug m ⟨f1.dir, RB_BLACK, f1.val, f1.other⟩)
          ⟨f2.dir, RB_RED, f2.val, setBlack f2.other⟩) rest2 ∧
      (f1 :: f2 :: rest2).length = rest2.length + 2) :=
  ⟨fixupIters_le path n, fun m f1 f2 rest2 h1 h2 =>
    ⟨ins_fixup_red_uncle_step m f1 f2 rest2 h1 h2, by simp⟩⟩

/-- C5 witness: the red-uncle step equation discharged at a concrete input. -/
theorem insert_fixup_terminates_witness :
    ins_fixup (rbnode.node RB_RED rbnode.nil (5 : Int) rbnode.nil)
      (⟨true, RB_RED, 4, rbnode.nil⟩ :: ⟨true, RB_BLACK, 3,
        rbnode.node RB_RED rbnode.nil 2 rbnode.nil⟩ :: []) =
      ins_fixup (plug (plug (rbnode.node RB_RED rbnode.nil (5 : Int) rbnode.nil)
          ⟨true, RB_BLACK, 4, rbnode.nil⟩)
        ⟨true, RB_RED, 3, setBlack (rbnode.node RB_RED rbnode.nil 2 rbnode.nil)⟩) [] :=
  ((insert_fixup_terminates (rbnode.nil) []).2 _ _ _ _ rfl (by decide)).1

/-- C7: `rbtree_traverse` refines the in-order visiting sequence: it equals
the spec-level walk over the in-order payload list, which stops at the first
nonzero callback result and returns it unchanged; and a callback returning 0
everywhere makes the traversal return 0 (after visiting every node, i.e. the
whole in-order list). -/
theorem rbtree_traverse_spec (t : rbtree α) (cb : α → σ → Int × σ) (s : σ) :
    rbtree_traverse t cb s = traverseSpec cb (inorder t.root) s ∧
      ((∀ v st, (cb v st).1 = 0) → (rbtree_traverse t cb s).1 = 0) := by
  constructor
  · exact traverse_eq_spec cb t.root s
  · intro h
    rw [rbtree_traverse, traverse_eq_spec]
    exact traverseSpec_all_zero cb h _ _

/-- C7 witness: the all-zero-callback conclusion at a concrete tree. -/
theorem rbtree_traverse_spec_witness :
    (rbtree_traverse ⟨rbnode.node RB_BLACK rbnode.nil (1 : Int) rbnode.nil,
      fun a b => a - b⟩ (fun v acc => ((0 : Int), acc ++ [v])) ([] : List Int)).1 = 0 :=
  (rbtree_traverse_spec _ _ _).2 (fun _ _ => rfl)

/-- C8: a rotation rewrites only the rotated slot and the child links of the
two nodes involved (the displaced middle subtree is re-attached verbatim, as
the structural equations show), and it leaves the in-order payload sequence
of the rotated subtree unchanged. -/
theorem rotate_preserves_inorder (c lc rc : Int) (l ll lr rl rr : rbnode α) (v lv rv : α) :
    rotate_left (rbnode.node c l v (rbnode.node rc rl rv rr)) =
      rbnode.node rc (rbnode.node c l v rl) rv rr ∧
    rotate_right (rbnode.node c (rbnode.node lc ll lv lr) v l) =
      rbnode.node lc ll lv (rbnode.node c lr v l) ∧
    inorder (rotate_left (rbnode.node c l v (rbnode.node rc rl rv rr))) =
      inorder (rbnode.node c l v (rbnode.node rc rl rv rr)) ∧
    inorder (rotate_right (rbnode.node c (rbnode.node lc ll lv lr) v l)) =
      inorder (rbnode.node c (rbnode.node lc ll lv lr) v l) :=
  ⟨rfl, rfl, inorder_rotate_left _, inorder_rotate_right _⟩

/-- C9: `rbtree_delete` performs no work: the returned tree is the argument
itself, so the root, the comparator and every node reachable from the root
(colors and child links included) are unchanged. -/
theorem rbtree_delete_noop (t : rbtree α) (x : α) :
    rbtree_delete t x = t ∧ (rbtree_delete t x).root = t.root ∧
      (rbtree_delete t x).cmp = t.cmp :=
  ⟨rfl, rfl, rfl⟩

/-! ### Consequences of the ordering contract -/

theorem cmp_flip_nonneg {cmp : α → α → Int} (hlaw : cmpLawful cmp) {a b : α}
    (h : 0 ≤ cmp a b) : cmp b a ≤ 0 := by
  by_contra hc
  push_neg at hc
  have h2 := (hlaw.1 a b).mpr hc
  omega

theorem cmp_lt_of_lt_of_le {cmp : α → α → Int} (hlaw : cmpLawful cmp) {a b c : α}
    (h1 : cmp a b < 0) (h2 : cmp b c ≤ 0) : cmp a c < 0 := by
  by_contra hc
  push_neg at hc
  have h3 : cmp c a ≤ 0 := cmp_flip_nonneg hlaw hc
  have h4 : cmp b a ≤ 0 := hlaw.2 b c a h2 h3
  have h5 : 0 < cmp b a := (hlaw.1 a b).mp h1
  omega

theorem cmp_lt_of_le_of_lt {cmp : α → α → Int} (hlaw : cmpLawful cmp) {a b c : α}
    (h1 : cmp a b ≤ 0) (h2 : cmp b c < 0) : cmp a c < 0 := by
  by_contra hc
  push_neg at hc
  have h3 : cmp c a ≤ 0 := cmp_flip_nonneg hlaw hc
  have h4 : cmp c b ≤ 0 := hlaw.2 c a b h3 h1
  have h5 : 0 < cmp c b := (hlaw.1 b c).mp h2
  omega

/-! ### The descent path: ordering bounds and decomposition -/

theorem descend_partition (cmp : α → α → Int) (x : α) (t : rbnode α) :
    inorder t = preL (descend cmp x t []) ++ postL (descend cmp x t []) := by
  have h := inorder_rebuild (descend cmp x t []) rbnode.nil
  rw [rebuild_descend] at h
  simpa using h

theorem descend_bounds {cmp : α → α → Int} (hlaw : cmpLawful cmp) (x : α) :
    ∀ (s : rbnode α) (p : List (Frame α)),
      List.Pairwise (fun a b => cmp a b ≤ 0) (inorder s) →
      (∀ u ∈ preL p, cmp u x ≤ 0) → (∀ w ∈ postL p, cmp x w < 0) →
      (∀ u ∈ preL (descend cmp x s p), cmp u x ≤ 0) ∧
      (∀ w ∈ postL (descend cmp x s p), cmp x w < 0) := by
  intro s
  induction s with
  | nil => exact fun p _ hpre hpost => ⟨hpre, hpost⟩
  | node c l v r ihl ihr =>
    intro p hs hpre hpost
    rw [inorder_node, List.pairwise_append] at hs
    obtain ⟨hsl, hsvr, hcross⟩ := hs
    rw [List.pairwise_cons] at hsvr
    obtain ⟨hvr, hsr⟩ := hsvr
    have hlv : ∀ u ∈ inorder l, cmp u v ≤ 0 := fun u hu => hcross u hu v (by simp)
    simp only [descend]
    split
    · rename_i hlt
      refine ihl _ hsl ?_ ?_
      · intro u hu
        simp only [preL, framePre] at hu
        simp at hu
        exact hpre u hu
      · intro w hw
        simp only [postL, framePost] at hw
        simp at hw
        rcases hw with hw | hw | hw
        · subst hw; exact hlt
        · exact cmp_lt_of_lt_of_le hlaw hlt (hvr w hw)
        · exact hpost w hw
    · rename_i hge
      push_neg at hge
      have hvx : cmp v x ≤ 0 := cmp_flip_nonneg hlaw hge
      refine ihr _ hsr ?_ ?_
      · intro u hu
        simp only [preL, framePre] at hu
        simp at hu
        rcases hu with hu | hu | hu
        · exact hpre u hu
        · exact hlaw.2 u v x (hlv u hu) hvx
        · subst hu; exact hvx
      · intro w hw
        simp only [postL, framePost] at hw
        simp at hw
        exact hpost w hw

/-! ### The fixup rewrites preserve the in-order sequence -/

theorem ins_terminal_inorder (n : rbnode α) (f1 f2 : Frame α) :
    inorder (ins_terminal n f1 f2) =
      framePre f2 ++ (framePre f1 ++ inorder n ++ framePost f1) ++ framePost f2 := by
  unfold ins_terminal
  split_ifs <;>
    simp_all [inorder_rotate_left, inorder_rotate_right, inorder_plug, inorder_setBlack,
      framePre, framePost, List.append_assoc]

theorem ins_fixup_inorder (path : List (Frame α)) (n : rbnode α) (t' : rbnode α) :
    ins_fixup n path = some t' → inorder t' = preL path ++ inorder n ++ postL path := by
  generalize hk : path.length = k
  induction k using Nat.strong_induction_on generalizing path n t' with
  | _ k ih =>
    intro h
    match path, hk with
    | [], _ =>
      simp only [ins_fixup, Option.some_inj] at h
      subst h
      simp [preL, postL]
    | f1 :: [], hk =>
      by_cases h1 : f1.color = RB_BLACK
      · rw [ins_fixup_black_parent _ _ _ h1] at h
        simp only [Option.some_inj] at h
        subst h
        exact inorder_rebuild _ _
      · rw [ins_fixup_red_root_parent _ _ h1] at h
        exact absurd h (by simp)
    | f1 :: f2 :: rest2, hk =>
      by_cases h1 : f1.color = RB_BLACK
      · rw [ins_fixup_black_parent _ _ _ h1] at h
        simp only [Option.some_inj] at h
        subst h
        exact inorder_rebuild _ _
      · by_cases h2 : f1.color = RB_RED
        · by_cases hu : is_black f2.other = false
          · rw [ins_fixup_red_uncle_step _ _ _ _ h2 hu] at h
            have hrec := ih rest2.length (by simp at hk; omega) rest2 _ _ rfl h
            rw [hrec, inorder_plug, inorder_plug]
            simp [preL, postL, framePre, framePost, inorder_setBlack, List.append_assoc]
          · have hu' : is_black f2.other = true := by
              cases hb : is_black f2.other
              · exact absurd hb hu
              · rfl
            rw [ins_fixup_black_uncle _ _ _ _ h2 hu'] at h
            split_ifs at h
            simp only [Option.some_inj] at h
            subst h
            rw [inorder_rebuild, ins_terminal_inorder]
            simp [preL, postL, List.append_assoc]
        · rw [ins_fixup_invalid_color _ _ _ h1 h2] at h
          exact absurd h (by simp)

theorem insert_node_inorder {cmp : α → α → Int} {x : α} {t t' : rbnode α}
    (h : rbtree_insert_node cmp t x = some t') :
    inorder t' = preL (descend cmp x t []) ++ x :: postL (descend cmp x t []) := by
  unfold rbtree_insert_node at h
  split_ifs at h
  have h2 := ins_fixup_inorder _ _ _ h
  simpa [inorder] using h2

theorem insert_node_sorted {cmp : α → α → Int} (hlaw : cmpLawful cmp) {x : α}
    {t t' : rbnode α}
    (hsort : List.Pairwise (fun a b => cmp a b ≤ 0) (inorder t))
    (h : rbtree_insert_node cmp t x = some t') :
    List.Pairwise (fun a b => cmp a b ≤ 0) (inorder t') ∧
      (inorder t').Perm (x :: inorder t) := by
  have hio := insert_node_inorder h
  have hpart := descend_partition cmp x t
  have hbounds := descend_bounds hlaw x t [] hsort (by simp [preL]) (by simp [postL])
  obtain ⟨hpre, hpost⟩ := hbounds
  rw [hpart, List.pairwise_append] at hsort
  obtain ⟨hp1, hp2, hcross⟩ := hsort
  constructor
  · rw [hio, List.pairwise_append]
    refine ⟨hp1, ?_, ?_⟩
    · rw [List.pairwise_cons]
      exact ⟨fun w hw => le_of_lt (hpost w hw), hp2⟩
    · intro a ha b hb
      rcases List.mem_cons.mp hb with hb | hb
      · subst hb; exact hpre a ha
      · exact hcross a ha b hb
  · rw [hio, hpart]
    exact List.perm_middle

theorem insertList_sorted {cmp : α → α → Int} (hlaw : cmpLawful cmp) :
    ∀ (xs : List α) (t0 t : rbnode α),
      List.Pairwise (fun a b => cmp a b ≤ 0) (inorder t0) →
      insertList cmp xs t0 = some t →
      List.Pairwise (fun a b => cmp a b ≤ 0) (inorder t) ∧
        (inorder t).Perm (xs ++ inorder t0) := by
  intro xs
  induction xs with
  | nil =>
    intro t0 t hs h
    simp only [insertList, Option.some_inj] at h
    subst h
    exact ⟨hs, by simp⟩
  | cons x xs ih =>
    intro t0 t hs h
    simp only [insertList] at h
    cases hx : rbtree_insert_node cmp t0 x with
    | none => rw [hx] at h; exact absurd h (by simp)
    | some t1 =>
      rw [hx] at h
      have h1 := insert_node_sorted hlaw hs hx
      have h2 := ih t1 t h1.1 h
      refine ⟨h2.1, ?_⟩
      exact h2.2.trans ((List.Perm.append_left xs h1.2).trans List.perm_middle)

/-! ### Search lemmas -/

theorem search_node_found {cmp : α → α → Int} {k : α} :
    ∀ (t : rbnode α) (c : Int) (l : rbnode α) (v : α) (r : rbnode α),
      search_node cmp k t = rbnode.node c l v r → cmp k v = 0 := by
  intro t
  induction t with
  | nil =>
    intro c l v r h
    exact absurd h (by simp [search_node])
  | node c0 l0 v0 r0 ihl ihr =>
    intro c l v r h
    simp only [search_node] at h
    split_ifs at h with hlt hgt
    · exact ihl _ _ _ _ h
    · exact ihr _ _ _ _ h
    · injection h with h1 h2 h3 h4
      subst h3
      omega

theorem search_node_nil_not_mem {cmp : α → α → Int} (hlaw : cmpLawful cmp) (k : α) :
    ∀ (t : rbnode α),
      List.Pairwise (fun a b => cmp a b ≤ 0) (inorder t) →
      search_node cmp k t = rbnode.nil → ∀ v ∈ inorder t, cmp k v ≠ 0 := by
  intro t
  induction t with
  | nil => intro _ _ v hv; simp at hv
  | node c l v0 r ihl ihr =>
    intro hs h u hu
    rw [inorder_node, List.pairwise_append] at hs
    obtain ⟨hsl, hsvr, hcross⟩ := hs
    rw [List.pairwise_cons] at hsvr
    obtain ⟨hvr, hsr⟩ := hsvr
    simp only [search_node] at h
    rw [inorder_node] at hu
    simp only [List.mem_append, List.mem_cons] at hu
    split_ifs at h with hlt hgt
    · rcases hu with hu | hu | hu
      · exact ihl hsl h u hu
      · subst hu; omega
      · have := cmp_lt_of_lt_of_le hlaw hlt (hvr u hu)
        omega
    · rcases hu with hu | hu | hu
      · intro heq
        have h2 : cmp u v0 ≤ 0 := hcross u hu v0 (by simp)
        have h3 : cmp k v0 ≤ 0 := hlaw.2 k u v0 (le_of_eq heq) h2
        omega
      · subst hu; omega
      · exact ihr hsr h u hu

/-! ### Concrete comparator for witnesses -/

/-- Integer comparator used by the concrete witnesses. -/
def intCmp : Int → Int → Int := fun a b => a - b

theorem intCmp_lawful : cmpLawful intCmp := by
  constructor
  · intro a b
    show a - b < 0 ↔ 0 < b - a
    omega
  · intro a b c h1 h2
    show a - c ≤ 0
    have g1 : a - b ≤ 0 := h1
    have g2 : b - c ≤ 0 := h2
    omega

theorem traverse_collect (t : rbnode α) (acc : List α) :
    traverse (fun v l => ((0 : Int), l ++ [v])) t acc = (0, acc ++ inorder t) := by
  induction t generalizing acc with
  | nil => simp [traverse]
  | node c l v r ihl ihr => simp [traverse, ihl, ihr, List.append_assoc]

/-! ### Claim theorems: C2, C4, C10 -/

/-- C2: starting from an initialized empty tree, after any sequence of
successful `rbtree_insert` calls, the in-order traversal (`rbtree_traverse`
with a collecting callback) visits exactly the inserted values, in
non-decreasing comparator order. -/
theorem insert_sequence_traversal_sorted {cmp : α → α → Int} (hlaw : cmpLawful cmp)
    (xs : List α) (t : rbnode α)
    (h : insertList cmp xs (rbtree_init cmp).root = some t) :
    rbtree_traverse ⟨t, cmp⟩ (fun v l => ((0 : Int), l ++ [v])) [] = (0, inorder t) ∧
    List.Pairwise (fun a b => cmp a b ≤ 0) (inorder t) ∧
    (inorder t).Perm xs := by
  have h2 := insertList_sorted hlaw xs (rbtree_init cmp).root t List.Pairwise.nil h
  refine ⟨by simpa using traverse_collect t [], h2.1, ?_⟩
  simpa [rbtree_init] using h2.2

/-- The tree produced by inserting 2, 1, 3 into an empty integer tree. -/
def c2tree : rbnode Int :=
  .node RB_BLACK (.node RB_RED .nil 1 .nil) 2 (.node RB_RED .nil 3 .nil)

/-- C2 witness: the sequence 2, 1, 3 inserted into the empty tree. -/
theorem insert_sequence_traversal_sorted_witness :
    rbtree_traverse ⟨c2tree, intCmp⟩ (fun v l => ((0 : Int), l ++ [v])) [] =
      (0, inorder c2tree) ∧
    List.Pairwise (fun a b => intCmp a b ≤ 0) (inorder c2tree) ∧
    (inorder c2tree).Perm [2, 1, 3] :=
  insert_sequence_traversal_sorted intCmp_lawful [2, 1, 3] c2tree (by decide)

/-- C4: `rbtree_search` descends from the root by comparator sign; a
non-absent result is a node whose payload compares equal to the key, and on a
comparator-sorted tree an absent (`nil`) result means no node of the tree
compares equal to the key -- absent is an ordinary return value of the total
function, not an error. -/
theorem rbtree_search_spec (t : rbtree α) (k : α) :
    (∀ c l v r, rbtree_search t k = rbnode.node c l v r → t.cmp k v = 0) ∧
    (cmpLawful t.cmp → List.Pairwise (fun a b => t.cmp a b ≤ 0) (inorder t.root) →
      rbtree_search t k = rbnode.nil → ∀ v ∈ inorder t.root, t.cmp k v ≠ 0) :=
  ⟨fun c l v r h => search_node_found t.root c l v r h,
   fun hlaw hs h => search_node_nil_not_mem hlaw k t.root hs h⟩

/-- Singleton search-witness tree. -/
def searchT : rbtree Int := ⟨.node RB_BLACK .nil 1 .nil, intCmp⟩

/-- C4 witness: searching 2 in the singleton tree {1} returns absent, and
indeed 1 does not compare equal to 2. -/
theorem rbtree_search_spec_witness : intCmp 2 1 ≠ 0 :=
  (rbtree_search_spec searchT 2).2 intCmp_lawful (by decide) rfl 1 (by decide)

/-- C10: a zero comparison sends the descent into the right subtree, so
inserting a value comparing equal to an existing member keeps both: the
in-order sequence of the new tree is the old sequence with the new value
spliced in strictly after the pre-existing equal member. -/
theorem insert_duplicate_after_existing {cmp : α → α → Int} :
    (∀ (x v : α) (c : Int) (l r : rbnode α) (p : List (Frame α)), cmp x v = 0 →
      descend cmp x (rbnode.node c l v r) p = descend cmp x r (⟨true, c, v, l⟩ :: p)) ∧
    (cmpLawful cmp → ∀ (t t' : rbnode α) (x u : α),
      List.Pairwise (fun a b => cmp a b ≤ 0) (inorder t) →
      u ∈ inorder t → cmp x u = 0 →
      rbtree_insert_node cmp t x = some t' →
      ∃ pre post, inorder t' = pre ++ x :: post ∧ u ∈ pre ∧
        pre ++ post = inorder t) := by
  constructor
  · intro x v c l r p h
    have hnl : ¬ cmp x v < 0 := by omega
    simp [descend, hnl]
  · intro hlaw t t' x u hsort hu heq hins
    refine ⟨preL (descend cmp x t []), postL (descend cmp x t []),
      insert_node_inorder hins, ?_, (descend_partition cmp x t).symm⟩
    have hbounds := descend_bounds hlaw x t [] hsort (by simp [preL]) (by simp [postL])
    rw [descend_partition cmp x t, List.mem_append] at hu
    rcases hu with hu | hu
    · exact hu
    · have := hbounds.2 u hu
      omega

/-- C10 witness: inserting a second key 1 into the singleton tree {1}. -/
theorem insert_duplicate_after_existing_witness :
    ∃ pre post,
      inorder (rbnode.node RB_BLACK rbnode.nil (1 : Int)
        (rbnode.node RB_RED rbnode.nil 1 rbnode.nil)) = pre ++ 1 :: post ∧
      (1 : Int) ∈ pre ∧
      pre ++ post = inorder (rbnode.node RB_BLACK rbnode.nil (1 : Int) rbnode.nil) :=
  (@insert_duplicate_after_existing Int intCmp).2 intCmp_lawful _ _ 1 1
    (by simp) (by simp) (by decide) (by decide)

/-! ### Height and size bounds under the red-black invariants -/

theorem descend_length (cmp : α → α → Int) (x : α) :
    ∀ (s : rbnode α) (p : List (Frame α)),
      (descend cmp x s p).length ≤ height s + p.length := by
  intro s
  induction s with
  | nil => intro p; simp [descend, height]
  | node c l v r ihl ihr =>
    intro p
    simp only [descend]
    split
    · have h := ihl (⟨false, c, v, r⟩ :: p)
      simp only [List.length_cons] at h
      have hm : height l ≤ max (height l) (height r) := le_max_left _ _
      simp only [height]
      omega
    · have h := ihr (⟨true, c, v, l⟩ :: p)
      simp only [List.length_cons] at h
      have hm : height r ≤ max (height l) (height r) := le_max_right _ _
      simp only [height]
      omega

theorem height_bound :
    ∀ (t : rbnode α), check_red_nodes t = 0 → ∀ d : Int, get_black_depth t = d → 1 ≤ d →
      (height t : Int) ≤ 2 * d - 1 ∧
        (is_black t = true → (height t : Int) ≤ 2 * d - 2) := by
  intro t
  induction t with
  | nil =>
    intro _ d hd h1
    simp only [get_black_depth] at hd
    simp only [height]
    constructor
    · push_cast; omega
    · intro _; push_cast; omega
  | node c l v r ihl ihr =>
    intro hred d hd h1
    obtain ⟨hdl, hdr, hd1⟩ := get_black_depth_node hd h1
    rw [check_red_nodes_node] at hred
    obtain ⟨hcond, hrl, hrr⟩ := hred
    cases hself : is_black (rbnode.node c l v r)
    · simp [hself] at hcond
      obtain ⟨hbl, hbr⟩ := hcond
      simp [hself] at hdl hdr hd1
      have il := (ihl hrl d hdl h1).2 hbl
      have ir := (ihr hrr d hdr h1).2 hbr
      have hm := max_le il ir
      constructor
      · simp only [height]; push_cast; omega
      · intro hcontra
        simp [hself] at hcontra
    · simp [hself] at hdl hdr hd1
      have il := (ihl hrl (d - 1) hdl hd1).1
      have ir := (ihr hrr (d - 1) hdr hd1).1
      have hm := max_le il ir
      constructor
      · simp only [height]; push_cast; omega
      · intro _; simp only [height]; push_cast; omega

theorem size_ge_pow_black_depth :
    ∀ (t : rbnode α) (d : Int), get_black_depth t = d → 1 ≤ d →
      2 ^ ((d - 1).toNat) ≤ size t + 1 := by
  intro t
  induction t with
  | nil =>
    intro d hd _
    simp only [get_black_depth] at hd
    subst hd
    norm_num [size]
  | node c l v r ihl ihr =>
    intro d hd h1
    obtain ⟨hdl, hdr, hd1⟩ := get_black_depth_node hd h1
    cases hself : is_black (rbnode.node c l v r)
    · simp [hself] at hdl hdr hd1
      have il := ihl d hdl h1
      simp only [size]
      omega
    · simp [hself] at hdl hdr hd1
      have il := ihl (d - 1) hdl hd1
      have ir := ihr (d - 1) hdr hd1
      simp only [size]
      have h2 : (d - 1).toNat = (d - 1 - 1).toNat + 1 := by omega
      rw [h2, pow_succ]
      omega

theorem insert_depth_guard {cmp : α → α → Int} {x : α} {t : rbnode α}
    (hrb : rbcheck t = true) (hsize : size t ≤ 2 ^ 64 - 2) :
    (descend cmp x t []).length < MAX_RBTREE_DEPTH := by
  rw [rbcheck_eq_true] at hrb
  obtain ⟨hc, hb, hred, hbd⟩ := hrb
  rcases get_black_depth_cases t with hdc | hdc
  · rw [hdc] at hbd; omega
  · have hh := (height_bound t hred (get_black_depth t) rfl hdc).2 hb
    have hs := size_ge_pow_black_depth t (get_black_depth t) rfl hdc
    have hd64 : (get_black_depth t - 1).toNat ≤ 63 := by
      by_contra hcon
      push_neg at hcon
      have hpow : (2 : ℕ) ^ 64 ≤ 2 ^ ((get_black_depth t - 1).toNat) :=
        Nat.pow_le_pow_right (by norm_num) (by omega)
      omega
    have hht : height t ≤ 126 := by omega
    have hlen := descend_length cmp x t []
    simp only [List.length_nil] at hlen
    simp only [MAX_RBTREE_DEPTH]
    omega

/-- C6: the path-tracking auxiliary storage has fixed capacity
`MAX_RBTREE_DEPTH = 128`, and on a tree satisfying the five invariants whose
node count is below about `2^64` the descent of `rbtree_insert` records at
most 126 levels, so the `assert(current < MAX_RBTREE_DEPTH)` guard never
fires. -/
theorem insert_path_depth_bounded (cmp : α → α → Int) (x : α) (t : rbnode α) :
    MAX_RBTREE_DEPTH = 128 ∧
    (rbcheck t = true → size t ≤ 2 ^ 64 - 2 →
      (descend cmp x t []).length < MAX_RBTREE_DEPTH) :=
  ⟨rfl, fun h1 h2 => insert_depth_guard h1 h2⟩

/-- C6 witness: the depth guard at a concrete one-node tree. -/
theorem insert_path_depth_bounded_witness :
    (descend intCmp 2 (rbnode.node RB_BLACK rbnode.nil (1 : Int) rbnode.nil) []).length <
      MAX_RBTREE_DEPTH :=
  (insert_path_depth_bounded intCmp 2 _).2 (by decide) (by decide)

/-! ### Invariant preservation of insertion: path validity -/

@[simp] theorem is_black_node_red {l r : rbnode α} {v : α} :
    is_black (rbnode.node RB_RED l v r) = false := rfl

@[simp] theorem is_black_node_black {l r : rbnode α} {v : α} :
    is_black (rbnode.node RB_BLACK l v r) = true := rfl

theorem check_node_colors_intro {c : Int} {l r : rbnode α} {v : α}
    (hc : c = RB_RED ∨ c = RB_BLACK)
    (hl : check_node_colors l = 0) (hr : check_node_colors r = 0) :
    check_node_colors (rbnode.node c l v r) = 0 :=
  check_node_colors_node.mpr ⟨hc, hl, hr⟩

theorem check_red_nodes_intro {c : Int} {l r : rbnode α} {v : α}
    (hl : check_red_nodes l = 0) (hr : check_red_nodes r = 0)
    (hc : c = RB_BLACK ∨ (is_black l = true ∧ is_black r = true)) :
    check_red_nodes (rbnode.node c l v r) = 0 := by
  rw [check_red_nodes_node]
  rcases hc with hc | hc
  · exact ⟨Or.inl (by simp [hc]), hl, hr⟩
  · exact ⟨Or.inr hc, hl, hr⟩

theorem red_root_children {c : Int} {l r : rbnode α} {v : α}
    (h : check_red_nodes (rbnode.node c l v r) = 0)
    (hb : is_black (rbnode.node c l v r) = false) :
    is_black l = true ∧ is_black r = true := by
  rw [check_red_nodes_node] at h
  rcases h.1 with hh | hh
  · rw [hb] at hh
    exact absurd hh (by simp)
  · exact hh

theorem get_black_depth_node_c {c : Int} {l r : rbnode α} {v : α} {d : Int}
    (h : get_black_depth (rbnode.node c l v r) = d) (hd : 1 ≤ d) :
    get_black_depth l = d - (if c = RB_BLACK then 1 else 0) ∧
    get_black_depth r = d - (if c = RB_BLACK then 1 else 0) ∧
    1 ≤ d - (if c = RB_BLACK then 1 else 0) := by
  obtain ⟨h1, h2, h3⟩ := get_black_depth_node h hd
  constructor
  · simpa using h1
  constructor
  · simpa using h2
  · simpa using h3

theorem get_black_depth_node_intro_c {c : Int} {l r : rbnode α} {v : α} {d : Int}
    (hl : get_black_depth l = d) (hr : get_black_depth r = d) (hd : 1 ≤ d) :
    get_black_depth (rbnode.node c l v r) = d + (if c = RB_BLACK then 1 else 0) := by
  rw [get_black_depth_node_intro hl hr hd]
  simp

theorem plug_eq (m : rbnode α) (f : Frame α) :
    plug m f = if f.dir then rbnode.node f.color f.other f.val m
               else rbnode.node f.color m f.val f.other := rfl

theorem plug_is_black (m : rbnode α) (f : Frame α) :
    is_black (plug m f) = decide (f.color = RB_BLACK) := by
  rw [plug_eq]
  split <;> rfl

theorem plug_colors {m : rbnode α} {f : Frame α}
    (hf : f.color = RB_RED ∨ f.color = RB_BLACK)
    (hm : check_node_colors m = 0) (ho : check_node_colors f.other = 0) :
    check_node_colors (plug m f) = 0 := by
  rw [plug_eq]
  split
  · exact check_node_colors_intro hf ho hm
  · exact check_node_colors_intro hf hm ho

theorem plug_red {m : rbnode α} {f : Frame α}
    (hm : check_red_nodes m = 0) (ho : check_red_nodes f.other = 0)
    (hcase : f.color = RB_BLACK ∨ (is_black m = true ∧ is_black f.other = true)) :
    check_red_nodes (plug m f) = 0 := by
  rw [plug_eq]
  split
  · exact check_red_nodes_intro ho hm (by tauto)
  · exact check_red_nodes_intro hm ho (by tauto)

theorem plug_bd {m : rbnode α} {f : Frame α} {d : Int}
    (hm : get_black_depth m = d) (ho : get_black_depth f.other = d) (hd : 1 ≤ d) :
    get_black_depth (plug m f) = d + (if f.color = RB_BLACK then 1 else 0) := by
  rw [plug_eq]
  split
  · exact get_black_depth_node_intro_c ho hm hd
  · exact get_black_depth_node_intro_c hm ho hd

theorem setBlack_colors {t : rbnode α} (h : check_node_colors t = 0) :
    check_node_colors (setBlack t) = 0 := by
  cases t with
  | nil => rfl
  | node c l v r =>
    rw [check_node_colors_node] at h
    exact check_node_colors_intro (Or.inr rfl) h.2.1 h.2.2

theorem setBlack_red {t : rbnode α} (h : check_red_nodes t = 0) :
    check_red_nodes (setBlack t) = 0 := by
  cases t with
  | nil => rfl
  | node c l v r =>
    rw [check_red_nodes_node] at h
    exact check_red_nodes_intro h.2.1 h.2.2 (Or.inl rfl)

theorem setBlack_is_black (t : rbnode α) : is_black (setBlack t) = true := by
  cases t <;> simp [setBlack]

theorem setBlack_bd_of_not_black {t : rbnode α} {d : Int}
    (hb : is_black t = false) (hd : get_black_depth t = d) (h1 : 1 ≤ d) :
    get_black_depth (setBlack t) = d + 1 := by
  cases t with
  | nil => simp at hb
  | node c l v r =>
    obtain ⟨hdl, hdr, hd1⟩ := get_black_depth_node hd h1
    rw [hb] at hdl hdr
    simp only [Bool.false_eq_true, if_false, sub_zero] at hdl hdr
    show get_black_depth (rbnode.node RB_BLACK l v r) = d + 1
    rw [get_black_depth_node_intro_c hdl hdr h1]
    simp

/-- Head frame of a path is black (or the path is empty). -/
def headBlack : List (Frame α) → Prop
  | [] => True
  | f :: _ => f.color = RB_BLACK

/-- Validity of a recorded descent path around a hole of black depth `d`:
each frame has a valid color and a fully valid `other` subtree whose black
depth matches the hole's level, red frames sit under black ones with black
siblings, and the outermost frame (the root of the tree) is black. -/
def pathsOk : List (Frame α) → Int → Prop
  | [], _ => True
  | f :: rest, d =>
    (f.color = RB_RED ∨ f.color = RB_BLACK) ∧
    check_node_colors f.other = 0 ∧
    check_red_nodes f.other = 0 ∧
    get_black_depth f.other = d ∧
    (f.color = RB_RED → is_black f.other = true ∧ headBlack rest) ∧
    (rest = [] → f.color = RB_BLACK) ∧
    pathsOk rest (d + (if f.color = RB_BLACK then 1 else 0))

theorem rebuild_ok :
    ∀ (path : List (Frame α)) (d : Int) (n : rbnode α),
      pathsOk path d →
      check_node_colors n = 0 → check_red_nodes n = 0 →
      get_black_depth n = d → 1 ≤ d →
      (is_black n = true ∨ headBlack path) →
      (path = [] → is_black n = true) →
      check_node_colors (rebuild n path) = 0 ∧
      check_red_nodes (rebuild n path) = 0 ∧
      1 ≤ get_black_depth (rebuild n path) ∧
      is_black (rebuild n path) = true := by
  intro path
  induction path with
  | nil =>
    intro d n hp hc hr hd h1 hhead hroot
    refine ⟨hc, hr, ?_, hroot rfl⟩
    rw [rebuild_nil_path, hd]
    omega
  | cons f rest ih =>
    intro d n hp hc hr hd h1 hhead hroot
    obtain ⟨hfc, hoc, hor, hod, hred, hlast, hrest⟩ := hp
    rw [rebuild_cons]
    have hpc : check_node_colors (plug n f) = 0 := plug_colors hfc hc hoc
    have hpr : check_red_nodes (plug n f) = 0 := by
      apply plug_red hr hor
      rcases hfc with hcol | hcol
      · right
        refine ⟨?_, (hred hcol).1⟩
        rcases hhead with hb | hb
        · exact hb
        · have hb' : f.color = RB_BLACK := hb
          rw [hcol] at hb'
          exact absurd hb' red_ne_black
      · exact Or.inl hcol
    have hpd : get_black_depth (plug n f) = d + (if f.color = RB_BLACK then 1 else 0) :=
      plug_bd hd hod h1
    apply ih _ _ hrest hpc hpr hpd (by split <;> omega) ?_ ?_
    · rcases hfc with hcol | hcol
      · exact Or.inr (hred hcol).2
      · left
        rw [plug_is_black]
        simp [hcol]
    · intro hre
      rw [plug_is_black]
      simp [hlast hre]

@[simp] theorem ite_red_black {x y : Int} : (if RB_RED = RB_BLACK then x else y) = y := by
  norm_num [RB_RED, RB_BLACK]

@[simp] theorem ite_black_black {x y : Int} : (if RB_BLACK = RB_BLACK then x else y) = x :=
  if_pos rfl

theorem ins_terminal_ok {n : rbnode α} {f1 f2 : Frame α} {d : Int}
    (hnc : check_node_colors n = 0) (hnr : check_red_nodes n = 0)
    (hnd : get_black_depth n = d) (h1 : 1 ≤ d) (hnb : is_black n = false)
    (hf1 : f1.color = RB_RED)
    (ho1c : check_node_colors f1.other = 0) (ho1r : check_red_nodes f1.other = 0)
    (ho1d : get_black_depth f1.other = d) (ho1b : is_black f1.other = true)
    (ho2c : check_node_colors f2.other = 0) (ho2r : check_red_nodes f2.other = 0)
    (ho2d : get_black_depth f2.other = d) (ho2b : is_black f2.other = true) :
    check_node_colors (ins_terminal n f1 f2) = 0 ∧
    check_red_nodes (ins_terminal n f1 f2) = 0 ∧
    get_black_depth (ins_terminal n f1 f2) = d + 1 ∧
    is_black (ins_terminal n f1 f2) = true := by
  cases n with
  | nil => simp at hnb
  | node cn a x b =>
    have hcn : cn = RB_RED := by
      rcases (check_node_colors_node.mp hnc).1 with h | h
      · exact h
      · rw [h] at hnb
        simp at hnb
    subst hcn
    have hca := (check_node_colors_node.mp hnc).2.1
    have hcb := (check_node_colors_node.mp hnc).2.2
    have hra := (check_red_nodes_node.mp hnr).2.1
    have hrb2 := (check_red_nodes_node.mp hnr).2.2
    obtain ⟨hba, hbb⟩ := red_root_children hnr hnb
    obtain ⟨hda, hdb, _⟩ := get_black_depth_node_c hnd h1
    simp only [ite_red_black, sub_zero] at hda hdb
    cases hd1 : f1.dir <;> cases hd2 : f2.dir
    · -- outer left-left case: single right rotation at the grandparent
      have hT : ins_terminal (rbnode.node RB_RED a x b) f1 f2 =
          rbnode.node RB_BLACK (rbnode.node RB_RED a x b) f1.val
            (rbnode.node RB_RED f1.other f2.val f2.other) := by
        simp [ins_terminal, hd1, hd2, hf1, plug, setBlack, rotate_left, rotate_right]
      rw [hT]
      have hin_c := check_node_colors_intro (Or.inl rfl) ho1c ho2c
        (c := RB_RED) (v := f2.val)
      have hin_r := check_red_nodes_intro ho1r ho2r (Or.inr ⟨ho1b, ho2b⟩)
        (c := RB_RED) (v := f2.val)
      have hin_d : get_black_depth (rbnode.node RB_RED f1.other f2.val f2.other) = d := by
        rw [get_black_depth_node_intro_c ho1d ho2d h1]
        simp
      refine ⟨check_node_colors_intro (Or.inr rfl) hnc hin_c,
        check_red_nodes_intro hnr hin_r (Or.inl rfl), ?_, by simp⟩
      rw [get_black_depth_node_intro_c hnd hin_d h1]
      simp
    · -- inner left-right case: right rotation at the parent, then left rotation
      have hT : ins_terminal (rbnode.node RB_RED a x b) f1 f2 =
          rbnode.node RB_BLACK (rbnode.node RB_RED f2.other f2.val a) x
            (rbnode.node RB_RED b f1.val f1.other) := by
        simp [ins_terminal, hd1, hd2, hf1, plug, setBlack, rotate_left, rotate_right]
      rw [hT]
      have hl_c := check_node_colors_intro (Or.inl rfl) ho2c hca
        (c := RB_RED) (v := f2.val)
      have hl_r := check_red_nodes_intro ho2r hra (Or.inr ⟨ho2b, hba⟩)
        (c := RB_RED) (v := f2.val)
      have hl_d : get_black_depth (rbnode.node RB_RED f2.other f2.val a) = d := by
        rw [get_black_depth_node_intro_c ho2d hda h1]
        simp
      have hr_c := check_node_colors_intro (Or.inl rfl) hcb ho1c
        (c := RB_RED) (v := f1.val)
      have hr_r := check_red_nodes_intro hrb2 ho1r (Or.inr ⟨hbb, ho1b⟩)
        (c := RB_RED) (v := f1.val)
      have hr_d : get_black_depth (rbnode.node RB_RED b f1.val f1.other) = d := by
        rw [get_black_depth_node_intro_c hdb ho1d h1]
        simp
      refine ⟨check_node_colors_intro (Or.inr rfl) hl_c hr_c,
        check_red_nodes_intro hl_r hr_r (Or.inl rfl), ?_, by simp⟩
      rw [get_black_depth_node_intro_c hl_d hr_d h1]
      simp
    · -- inner right-left case: left rotation at the parent, then right rotation
      have hT : ins_terminal (rbnode.node RB_RED a x b) f1 f2 =
          rbnode.node RB_BLACK (rbnode.node RB_RED f1.other f1.val a) x
            (rbnode.node RB_RED b f2.val f2.other) := by
        simp [ins_terminal, hd1, hd2, hf1, plug, setBlack, rotate_left, rotate_right]
      rw [hT]
      have hl_c := check_node_colors_intro (Or.inl rfl) ho1c hca
        (c := RB_RED) (v := f1.val)
      have hl_r := check_red_nodes_intro ho1r hra (Or.inr ⟨ho1b, hba⟩)
        (c := RB_RED) (v := f1.val)
      have hl_d : get_black_depth (rbnode.node RB_RED f1.other f1.val a) = d := by
        rw [get_black_depth_node_intro_c ho1d hda h1]
        simp
      have hr_c := check_node_colors_intro (Or.inl rfl) hcb ho2c
        (c := RB_RED) (v := f2.val)
      have hr_r := check_red_nodes_intro hrb2 ho2r (Or.inr ⟨hbb, ho2b⟩)
        (c := RB_RED) (v := f2.val)
      have hr_d : get_black_depth (rbnode.node RB_RED b f2.val f2.other) = d := by
        rw [get_black_depth_node_intro_c hdb ho2d h1]
        simp
      refine ⟨check_node_colors_intro (Or.inr rfl) hl_c hr_c,
        check_red_nodes_intro hl_r hr_r (Or.inl rfl), ?_, by simp⟩
      rw [get_black_depth_node_intro_c hl_d hr_d h1]
      simp
    · -- outer right-right case: single left rotation at the grandparent
      have hT : ins_terminal (rbnode.node RB_RED a x b) f1 f2 =
          rbnode.node RB_BLACK (rbnode.node RB_RED f2.other f2.val f1.other) f1.val
            (rbnode.node RB_RED a x b) := by
        simp [ins_terminal, hd1, hd2, hf1, plug, setBlack, rotate_left, rotate_right]
      rw [hT]
      have hl_c := check_node_colors_intro (Or.inl rfl) ho2c ho1c
        (c := RB_RED) (v := f2.val)
      have hl_r := check_red_nodes_intro ho2r ho1r (Or.inr ⟨ho2b, ho1b⟩)
        (c := RB_RED) (v := f2.val)
      have hl_d : get_black_depth (rbnode.node RB_RED f2.other f2.val f1.other) = d := by
        rw [get_black_depth_node_intro_c ho2d ho1d h1]
        simp
      refine ⟨check_node_colors_intro (Or.inr rfl) hl_c hnc,
        check_red_nodes_intro hl_r hnr (Or.inl rfl), ?_, by simp⟩
      rw [get_black_depth_node_intro_c hl_d hnd h1]
      simp

theorem descend_ok {cmp : α → α → Int} {x : α} :
    ∀ (s : rbnode α) (p : List (Frame α)) (d : Int),
      check_node_colors s = 0 → check_red_nodes s = 0 →
      get_black_depth s = d → 1 ≤ d →
      pathsOk p d →
      (is_black s = false → headBlack p) →
      (p = [] → is_black s = true) →
      pathsOk (descend cmp x s p) 1 := by
  intro s
  induction s with
  | nil =>
    intro p d hc hr hd h1 hp hhead hroot
    have hd1 : d = 1 := by
      simp only [get_black_depth] at hd
      omega
    subst hd1
    simpa [descend] using hp
  | node c l v r ihl ihr =>
    intro p d hc hr hd h1 hp hhead hroot
    have hcx := check_node_colors_node.mp hc
    have hrx := check_red_nodes_node.mp hr
    obtain ⟨hdl, hdr, hdd⟩ := get_black_depth_node_c hd h1
    have hsum : d - (if c = RB_BLACK then (1 : Int) else 0) +
        (if c = RB_BLACK then (1 : Int) else 0) = d := by omega
    simp only [descend]
    split
    · apply ihl (⟨false, c, v, r⟩ :: p) _ hcx.2.1 hrx.2.1 hdl hdd ?_ ?_ ?_
      · refine ⟨hcx.1, hcx.2.2, hrx.2.2, hdr, ?_, ?_, ?_⟩
        · intro hcr0
          have hcr : c = RB_RED := hcr0
          have hch := red_root_children hr (by simp [hcr, red_ne_black])
          exact ⟨hch.2, hhead (by simp [hcr, red_ne_black])⟩
        · intro hpe
          have hroot2 := hroot hpe
          simpa using hroot2
        · show pathsOk p (d - (if c = RB_BLACK then (1 : Int) else 0) +
            (if c = RB_BLACK then (1 : Int) else 0))
          rw [hsum]
          exact hp
      · intro hlb
        show c = RB_BLACK
        rcases hcx.1 with hcr | hcb
        · have hch := red_root_children hr (by simp [hcr, red_ne_black])
          rw [hch.1] at hlb
          exact absurd hlb (by simp)
        · exact hcb
      · intro hcon
        exact absurd hcon (List.cons_ne_nil _ _)
    · apply ihr (⟨true, c, v, l⟩ :: p) _ hcx.2.2 hrx.2.2 hdr hdd ?_ ?_ ?_
      · refine ⟨hcx.1, hcx.2.1, hrx.2.1, hdl, ?_, ?_, ?_⟩
        · intro hcr0
          have hcr : c = RB_RED := hcr0
          have hch := red_root_children hr (by simp [hcr, red_ne_black])
          exact ⟨hch.1, hhead (by simp [hcr, red_ne_black])⟩
        · intro hpe
          have hroot2 := hroot hpe
          simpa using hroot2
        · show pathsOk p (d - (if c = RB_BLACK then (1 : Int) else 0) +
            (if c = RB_BLACK then (1 : Int) else 0))
          rw [hsum]
          exact hp
      · intro hrb3
        show c = RB_BLACK
        rcases hcx.1 with hcr | hcb
        · have hch := red_root_children hr (by simp [hcr, red_ne_black])
          rw [hch.2] at hrb3
          exact absurd hrb3 (by simp)
        · exact hcb
      · intro hcon
        exact absurd hcon (List.cons_ne_nil _ _)

theorem ins_fixup_ok (path : List (Frame α)) (d : Int) (n : rbnode α) :
    pathsOk path d →
    check_node_colors n = 0 → check_red_nodes n = 0 →
    get_black_depth n = d → 1 ≤ d → is_black n = false →
    ∃ t', ins_fixup n path = some t' ∧ rbcheck t' = true := by
  generalize hk : path.length = k
  induction k using Nat.strong_induction_on generalizing path d n with
  | _ k ih =>
    intro hp hc hr hd h1 hb
    match path, hk with
    | [], _ =>
      refine ⟨setBlack n, ins_fixup_nil_path n, ?_⟩
      rw [rbcheck_eq_true]
      refine ⟨setBlack_colors hc, setBlack_is_black n, setBlack_red hr, ?_⟩
      rw [setBlack_bd_of_not_black hb hd h1]
      omega
    | f1 :: rest, hk =>
      have hp' := hp
      obtain ⟨hfc, hoc, hor, hod, hred, hlast, hrest⟩ := hp'
      by_cases h1b : f1.color = RB_BLACK
      · refine ⟨rebuild n (f1 :: rest), ins_fixup_black_parent n f1 rest h1b, ?_⟩
        have hro := rebuild_ok (f1 :: rest) d n hp hc hr hd h1 (Or.inr h1b)
          (fun hcon => absurd hcon (List.cons_ne_nil _ _))
        rw [rbcheck_eq_true]
        exact ⟨hro.1, hro.2.2.2, hro.2.1, by have := hro.2.2.1; omega⟩
      · have h1r : f1.color = RB_RED := by
          rcases hfc with h | h
          · exact h
          · exact absurd h h1b
        rw [if_neg h1b, add_zero] at hrest
        cases rest with
        | nil => exact absurd (hlast rfl) h1b
        | cons f2 rest2 =>
          have huncle := hred h1r
          have hf2b : f2.color = RB_BLACK := huncle.2
          obtain ⟨g2c, g2oc, g2or, g2od, g2red, g2last, g2rest⟩ := hrest
          rw [if_pos hf2b] at g2rest
          by_cases hub : is_black f2.other = false
          · have hs_c : check_node_colors (setBlack f2.other) = 0 := setBlack_colors g2oc
            have hs_r : check_red_nodes (setBlack f2.other) = 0 := setBlack_red g2or
            have hs_d : get_black_depth (setBlack f2.other) = d + 1 :=
              setBlack_bd_of_not_black hub g2od h1
            have hp1_c : check_node_colors
                (plug n ⟨f1.dir, RB_BLACK, f1.val, f1.other⟩) = 0 :=
              plug_colors (Or.inr rfl) hc hoc
            have hp1_r : check_red_nodes
                (plug n ⟨f1.dir, RB_BLACK, f1.val, f1.other⟩) = 0 :=
              plug_red hr hor (Or.inl rfl)
            have hp1_d : get_black_depth
                (plug n ⟨f1.dir, RB_BLACK, f1.val, f1.other⟩) = d + 1 := by
              rw [plug_bd (f := ⟨f1.dir, RB_BLACK, f1.val, f1.other⟩) hd hod h1]
              simp
            have hn_c : check_node_colors
                (plug (plug n ⟨f1.dir, RB_BLACK, f1.val, f1.other⟩)
                  ⟨f2.dir, RB_RED, f2.val, setBlack f2.other⟩) = 0 :=
              plug_colors (Or.inl rfl) hp1_c hs_c
            have hn_r : check_red_nodes
                (plug (plug n ⟨f1.dir, RB_BLACK, f1.val, f1.other⟩)
                  ⟨f2.dir, RB_RED, f2.val, setBlack f2.other⟩) = 0 :=
              plug_red hp1_r hs_r
                (Or.inr ⟨by rw [plug_is_black]; rfl, setBlack_is_black _⟩)
            have hn_d : get_black_depth
                (plug (plug n ⟨f1.dir, RB_BLACK, f1.val, f1.other⟩)
                  ⟨f2.dir, RB_RED, f2.val, setBlack f2.other⟩) = d + 1 := by
              rw [plug_bd (f := ⟨f2.dir, RB_RED, f2.val, setBlack f2.other⟩) hp1_d hs_d
                (by omega)]
              simp
            have hn_b : is_black
                (plug (plug n ⟨f1.dir, RB_BLACK, f1.val, f1.other⟩)
                  ⟨f2.dir, RB_RED, f2.val, setBlack f2.other⟩) = false := by
              rw [plug_is_black]
              rfl
            have hrec := ih rest2.length (by simp at hk; omega) rest2 (d + 1) _ rfl
              g2rest hn_c hn_r hn_d (by omega) hn_b
            obtain ⟨t', hfix, hrbt⟩ := hrec
            exact ⟨t',
              by rw [ins_fixup_red_uncle_step n f1 f2 rest2 h1r hub]; exact hfix, hrbt⟩
          · have hub' : is_black f2.other = true := by
              cases hbb2 : is_black f2.other
              · exact absurd hbb2 hub
              · rfl
            have hterm := ins_terminal_ok hc hr hd h1 hb h1r hoc hor hod huncle.1
              g2oc g2or g2od hub'
            have hreb := rebuild_ok rest2 (d + 1) (ins_terminal n f1 f2) g2rest
              hterm.1 hterm.2.1 hterm.2.2.1 (by omega) (Or.inl hterm.2.2.2)
              (fun _ => hterm.2.2.2)
            have hrbc : rbcheck (rebuild (ins_terminal n f1 f2) rest2) = true := by
              rw [rbcheck_eq_true]
              exact ⟨hreb.1, hreb.2.2.2, hreb.2.1, by have := hreb.2.2.1; omega⟩
            exact ⟨rebuild (ins_terminal n f1 f2) rest2,
              by rw [ins_fixup_black_uncle n f1 f2 rest2 h1r hub', if_pos hrbc], hrbc⟩

theorem insert_node_perm {cmp : α → α → Int} {x : α} {t t' : rbnode α}
    (h : rbtree_insert_node cmp t x = some t') :
    (inorder t').Perm (x :: inorder t) := by
  rw [insert_node_inorder h, descend_partition cmp x t]
  exact List.perm_middle

/-- C1: on a tree satisfying the five red-black invariants (`RBCHECK`), and
small enough for the fixed-depth path stack (any tree a real machine can
hold), `rbtree_insert` completes without any assertion failure, links the new
node (the in-order payloads of the result are exactly the old ones plus the
new value), and the resulting tree satisfies all five invariants again. -/
theorem rbtree_insert_preserves_invariants {cmp : α → α → Int} (x : α) (t : rbnode α)
    (hrb : rbcheck t = true) (hsize : size t ≤ 2 ^ 64 - 2) :
    ∃ t', rbtree_insert ⟨t, cmp⟩ x = some ⟨t', cmp⟩ ∧ rbcheck t' = true ∧
      (inorder t').Perm (x :: inorder t) := by
  obtain ⟨hc, hbl, hredt, hbd⟩ := rbcheck_eq_true.mp hrb
  have hd1 : 1 ≤ get_black_depth t := by
    rcases get_black_depth_cases t with h | h
    · rw [h] at hbd; omega
    · exact h
  have hpaths := @descend_ok α cmp x t [] (get_black_depth t)
    hc hredt rfl hd1 trivial (fun _ => trivial) (fun _ => hbl)
  have hfix := ins_fixup_ok (descend cmp x t []) 1
    (rbnode.node RB_RED rbnode.nil x rbnode.nil) hpaths rfl rfl rfl (by norm_num) rfl
  obtain ⟨t', hsome, ht'⟩ := hfix
  have hguard := @insert_depth_guard α cmp x t hrb hsize
  have hfull : rbtree_insert_node cmp t x = some t' := by
    unfold rbtree_insert_node
    rw [if_neg (by simp [hrb]), if_neg (by omega)]
    exact hsome
  refine ⟨t', ?_, ht', insert_node_perm hfull⟩
  simp [rbtree_insert, hfull]

/-- C1 witness: inserting 2 into the singleton black tree {1}. -/
theorem rbtree_insert_preserves_invariants_witness :
    ∃ t', rbtree_insert ⟨rbnode.node RB_BLACK rbnode.nil (1 : Int) rbnode.nil, intCmp⟩ 2 =
        some ⟨t', intCmp⟩ ∧ rbcheck t' = true ∧
      (inorder t').Perm (2 :: inorder (rbnode.node RB_BLACK rbnode.nil (1 : Int) rbnode.nil)) :=
  rbtree_insert_preserves_invariants 2 _ (by decide) (by decide)

end Foundry
